/-
  Verification of the p2pool share-chain core (UnsignedInt8/rice).

  Shallow embedding of:
  - `Sharechain` (src/p2pool/p2p/shares/Sharechain.ts): the dual-indexed
    share store with its `append`, `cleanDeprecations`, `subchain`, `get`
    operations.  JS `Map`s are embedded as insertion-ordered association
    lists; heights are `Int` (JS numbers); event emission is made explicit
    as a returned list of events.
  - `Node` (the per-connection peer protocol class): `handleHave_tx`
    (bounded FIFO set `remoteTxHashs`), `close`, and the framing loop's
    magic/checksum verification (`beginReceivingMessagesAsync`).  SHA-256d
    is an external collaborator and is passed as a function parameter.
  - `Peer` (src/p2pool/p2p/Peer.ts): the `pendingShareRequests` bookkeeping
    of `handleGapsFound` / `handleSharereply`, with the SHA-256 digest of
    the gap key passed as a byte-list parameter.
-/
import Mathlib

set_option maxHeartbeats 1000000

/-! ## Association-list maps (embedding of JS `Map`) -/

/-- Lookup in an insertion-ordered association list (JS `Map.get`). -/
def mapFind? {α β : Type} [DecidableEq α] : List (α × β) → α → Option β
  | [], _ => none
  | (k, v) :: rest, key => if k = key then some v else mapFind? rest key

/-- JS `Map.set`: replace the value at an existing key, else append. -/
def mapSet {α β : Type} [DecidableEq α] : List (α × β) → α → β → List (α × β)
  | [], key, val => [(key, val)]
  | (k, v) :: rest, key, val =>
      if k = key then (k, val) :: rest else (k, v) :: mapSet rest key val

/-- JS `Map.delete`: remove the entry at a key. -/
def mapDelete {α β : Type} [DecidableEq α] : List (α × β) → α → List (α × β)
  | [], _ => []
  | (k, v) :: rest, key =>
      if k = key then mapDelete rest key else (k, v) :: mapDelete rest key

theorem mapFind?_mapSet_self {α β : Type} [DecidableEq α] (m : List (α × β)) (k : α) (v : β) :
    mapFind? (mapSet m k v) k = some v := by
  induction m with
  | nil => simp [mapSet, mapFind?]
  | cons p rest ih =>
    obtain ⟨k', v'⟩ := p
    by_cases h : k' = k
    · simp [mapSet, mapFind?, h]
    · simp [mapSet, mapFind?, h, ih]

theorem mapFind?_mapSet_ne {α β : Type} [DecidableEq α] (m : List (α × β)) (k key : α) (v : β)
    (h : key ≠ k) : mapFind? (mapSet m k v) key = mapFind? m key := by
  induction m with
  | nil => simp [mapSet, mapFind?, Ne.symm h]
  | cons p rest ih =>
    obtain ⟨k', v'⟩ := p
    by_cases hk : k' = k
    · subst hk
      simp [mapSet, mapFind?, Ne.symm h]
    · by_cases hk2 : k' = key <;> simp [mapSet, mapFind?, hk, hk2, ih, h]

theorem mapFind?_mapSet_cases {α β : Type} [DecidableEq α] (m : List (α × β)) (k key : α)
    (v w : β) (h : mapFind? (mapSet m k v) key = some w) :
    (key = k ∧ w = v) ∨ (key ≠ k ∧ mapFind? m key = some w) := by
  by_cases hk : key = k
  · subst hk
    rw [mapFind?_mapSet_self] at h
    exact Or.inl ⟨rfl, (Option.some_inj.mp h).symm⟩
  · rw [mapFind?_mapSet_ne m k key v hk] at h
    exact Or.inr ⟨hk, h⟩

theorem mapFind?_mapDelete {α β : Type} [DecidableEq α] (m : List (α × β)) (k key : α) :
    mapFind? (mapDelete m k) key = if key = k then none else mapFind? m key := by
  induction m with
  | nil => simp [mapDelete, mapFind?]
  | cons p rest ih =>
    obtain ⟨k', v'⟩ := p
    by_cases hk : k' = k
    · subst hk
      by_cases hkey : k' = key
      · subst hkey
        simp [mapDelete, ih]
      · simp [mapDelete, mapFind?, hkey, ih]
    · by_cases hkey : k' = key
      · subst hkey
        have hne : ¬ k' = k := hk
        simp [mapDelete, mapFind?, hk, ih, hne]
      · simp [mapDelete, mapFind?, hk, hkey, ih]

theorem mapFind?_mem {α β : Type} [DecidableEq α] (m : List (α × β)) (k : α) (v : β)
    (h : mapFind? m k = some v) : (k, v) ∈ m := by
  induction m with
  | nil => simp [mapFind?] at h
  | cons p rest ih =>
    obtain ⟨k', v'⟩ := p
    by_cases hk : k' = k
    · subst hk
      simp [mapFind?] at h
      simp [h]
    · simp [mapFind?, hk] at h
      exact List.mem_cons_of_mem _ (ih h)

/-! ## Share data model (§3 of the spec; `BaseShare` attributes used by the chain) -/

structure ShareData where
  previousShareHash : String
deriving DecidableEq, Repr

structure ShareInfo where
  absheight : Int
  data : ShareData
deriving DecidableEq, Repr

structure BaseShare where
  hash : String
  info : ShareInfo
  validity : Bool
deriving DecidableEq, Repr

structure Gap where
  descendent : String
  descendentHeight : Int
  length : Int
deriving DecidableEq, Repr

/-- Events fired by the share-chain store (`Sharechain.Events`).  `newestChanged`
is raised by the `ObservableProperty` callback when `newest.set` runs. -/
inductive SCEvent where
  | newestChanged (value : BaseShare)
  | deadArrived (share : BaseShare)
  | candidateArrived (share : BaseShare)
  | orphansFound (orphans : List BaseShare)
  | gapsFound (gaps : List Gap)
  | chainCalculatable
deriving DecidableEq, Repr

def BASE_CHAIN_LENGTH : Int := 24 * 60 * 60 / 10

def MAX_CHAIN_LENGTH : Int := BASE_CHAIN_LENGTH * 2

/-- The mutable state of the `Sharechain` singleton. -/
structure Sharechain where
  hashIndexer : List (String × Int)
  absheightIndexer : List (Int × List BaseShare)
  newest : Option BaseShare
  oldest : Option BaseShare
deriving DecidableEq, Repr

def Sharechain.initial : Sharechain := ⟨[], [], none, none⟩

/-- `Sharechain.cleanDeprecations`: when the window spans at least
`MAX_CHAIN_LENGTH`, drop every share stored at `oldest`'s height from both
indexers.  (`oldest` itself is left untouched, exactly as in the source.) -/
def Sharechain.cleanDeprecations (st : Sharechain) : Sharechain :=
  match st.newest, st.oldest with
  | some nw, some old =>
    if nw.info.absheight - old.info.absheight < MAX_CHAIN_LENGTH then st
    else
      match mapFind? st.absheightIndexer old.info.absheight with
      | none => st
      | some deprecatedShares =>
        if deprecatedShares.isEmpty then st
        else
          { st with
            absheightIndexer := mapDelete st.absheightIndexer old.info.absheight,
            hashIndexer :=
              deprecatedShares.foldl (fun m ds => mapDelete m ds.hash) st.hashIndexer }
  | _, _ => st

/-- The `oldest` maintenance line of `Sharechain.append`:
`if (this.oldest && share.info.absheight < this.oldest.info.absheight)
this.oldest = share`. -/
def Sharechain.updateOldest (st : Sharechain) (share : BaseShare) : Sharechain :=
  match st.oldest with
  | some old =>
      if share.info.absheight < old.info.absheight then { st with oldest := some share }
      else st
  | none => st

/-- The part of `Sharechain.append` after the share has been pushed into both
indexers and `oldest` maintained: the branch on the share's height relative to
`newest`.  `st2` is the state after insertion, `shares1` the updated height
list.  `singleOrDefault` is embedded as `List.find?` (height lists never store
one hash twice), `except` with the hash comparer as a filter on hashes, and
the JS bare `return;` (value `undefined`) as `false` (callers only test
truthiness). -/
def Sharechain.appendTail (st2 : Sharechain) (share : BaseShare)
    (shares1 : List BaseShare) : Bool × Sharechain × List SCEvent :=
  let height := share.info.absheight
  match st2.newest with
  | some nw =>
    if nw.info.absheight < height then
      let st3 := { st2 with newest := some share }
      let st4 := Sharechain.cleanDeprecations st3
      match mapFind? st4.absheightIndexer (height - 1) with
      | none =>
          (true, st4, [.newestChanged share, .gapsFound [⟨share.hash, height, 1⟩]])
      | some previousShares =>
        if previousShares.length < 2 then (true, st4, [.newestChanged share])
        else
          match previousShares.find?
              (fun s => decide (s.hash = share.info.data.previousShareHash)) with
          | some verified =>
            let orphans :=
              previousShares.filter (fun s => decide (¬ s.hash = verified.hash))
            let st5 := { st4 with
              absheightIndexer :=
                mapSet st4.absheightIndexer (height - 1) (verified :: orphans) }
            (true, st5, [SCEvent.newestChanged share] ++
              (if orphans.length > 0 then [SCEvent.orphansFound orphans] else []))
          | none =>
              (true, st4, [.newestChanged share, .gapsFound [⟨share.hash, height, 1⟩]])
    else if height = nw.info.absheight then
      (true, st2, [.candidateArrived share])
    else
      if shares1.length < 2 then (true, st2, [])
      else
        match mapFind? st2.absheightIndexer (height + 1) with
        | none => (false, st2, [])
        | some nextShares =>
          if nextShares.isEmpty then (false, st2, [])
          else if nextShares.any
              (fun s => decide (s.info.data.previousShareHash = share.hash)) = false then
            (false, st2, [.deadArrived share])
          else
            let orphans := shares1.filter (fun s => decide (¬ s.hash = share.hash))
            let st5 := { st2 with
              absheightIndexer := mapSet st2.absheightIndexer height (share :: orphans) }
            (false, st5,
              if orphans.length > 0 then [SCEvent.orphansFound orphans] else [])
  | none =>
    let st3 := { st2 with newest := some share }
    let st4 := if st3.oldest.isNone then { st3 with oldest := some share } else st3
    (true, st4, [.newestChanged share])

/-- `Sharechain.append`, returning `(result, state, events)`: reject invalid
shares, reject duplicates at the same height, push into both indexers,
maintain `oldest`, then branch on the height relative to `newest`
(`Sharechain.appendTail`). -/
def Sharechain.appendOp (st : Sharechain) (share : BaseShare) :
    Bool × Sharechain × List SCEvent :=
  if share.validity = false then (false, st, [])
  else
    let height := share.info.absheight
    let shares0 := (mapFind? st.absheightIndexer height).getD []
    if shares0.any (fun s => decide (s.hash = share.hash)) then (false, st, [])
    else
      let shares1 := shares0 ++ [share]
      let st1 : Sharechain :=
        { st with
          absheightIndexer := mapSet st.absheightIndexer height shares1,
          hashIndexer := mapSet st.hashIndexer share.hash height }
      Sharechain.appendTail (Sharechain.updateOldest st1 share) share shares1

/-- `Sharechain.add`: fold `append` over a list of shares. -/
def Sharechain.appendAll (st : Sharechain) (l : List BaseShare) : Sharechain :=
  l.foldl (fun s sh => (Sharechain.appendOp s sh).2.1) st

/-- `Sharechain.get`: by hash (string id) or by absheight (number id);
returns the index-0 share of the height list, or `null`. -/
def Sharechain.getShare (st : Sharechain) (id : Sum String Int) : Option BaseShare :=
  let height? : Option Int :=
    match id with
    | .inl hash => mapFind? st.hashIndexer hash
    | .inr n => some n
  match height? with
  | none => none
  | some height =>
    match mapFind? st.absheightIndexer height with
    | none => none
    | some [] => none
    | some (s :: _) => some s

inductive Direction where
  | backward
  | forward
deriving DecidableEq, Repr

/-- Loop body of `Sharechain.subchain`: `while (length--)` read the index-0
share at the current height, step by `share.info.absheight + step`. -/
def Sharechain.subchainGo (st : Sharechain) (step : Int) : Nat → Int → List BaseShare
  | 0, _ => []
  | n + 1, absheight =>
    match mapFind? st.absheightIndexer absheight with
    | none => []
    | some [] => []
    | some (s :: _) => s :: Sharechain.subchainGo st step n (s.info.absheight + step)

/-- `Sharechain.subchain` as the list of yielded shares.  The source's entry
check is `if (!absheight) return;`, which treats a missing hash *and* height
`0` (falsy) as empty. -/
def Sharechain.subchain (st : Sharechain) (startHash : String) (n : Nat)
    (direction : Direction) : List BaseShare :=
  match mapFind? st.hashIndexer startHash with
  | none => []
  | some absheight =>
    if absheight = 0 then []
    else
      Sharechain.subchainGo st (if direction = Direction.backward then -1 else 1) n absheight

/-! ## Node: per-connection peer protocol state (`src/unnamed/part_000`) -/

/-- JS `Set.add`: sets keep insertion order; adding a present element keeps
its original position. -/
def setAdd (l : List String) (x : String) : List String :=
  if l.contains x then l else l ++ [x]

/-- The `while (remoteTxHashs.size > 10)` loop of `Node.handleHave_tx`:
repeatedly delete the first-inserted element while more than 10 remain. -/
def evictOldest : List String → List String
  | [] => []
  | x :: rest => if rest.length + 1 > 10 then evictOldest rest else x :: rest

/-- `Node.handleHave_tx` acting on `remoteTxHashs`: evict down to 10 FIRST,
then insert every hash of the message. -/
def handleHaveTx (remoteTxHashs : List String) (txHashes : List String) : List String :=
  txHashes.foldl setAdd (evictOldest remoteTxHashs)

/-- `Node.handleLosing_tx` acting on `remoteTxHashs`. -/
def handleLosingTx (remoteTxHashs : List String) (txHashes : List String) : List String :=
  txHashes.foldl (fun l h => l.filter (fun x => decide (¬ x = h))) remoteTxHashs

/-- The connection-lifecycle state touched by `Node.close`.  `socketInstalled`
is whether `this.socket` is set (it is never cleared); `endEmitted` counts
`End` event emissions. -/
structure NodeConn where
  socketInstalled : Bool
  socketEnded : Bool
  listenersRemoved : Bool
  endEmitted : Nat
deriving DecidableEq, Repr

/-- `Node.close`: no-op without a socket; otherwise `socket.end()`,
`socket.removeAllListeners()`, `trigger(End)`. -/
def NodeConn.close (c : NodeConn) : NodeConn :=
  if c.socketInstalled then
    { c with socketEnded := true, listenersRemoved := true, endEmitted := c.endEmitted + 1 }
  else c

/-- Iterate `close` a number of times. -/
def NodeConn.closeIter (c : NodeConn) : Nat → NodeConn
  | 0 => c
  | n + 1 => NodeConn.closeIter c.close n

inductive NodeEvent where
  | badPeer (reason : String)
  | unknownCommand (cmd : String)
deriving DecidableEq, Repr

/-- One decoded wire frame as read by `beginReceivingMessagesAsync`
(8-byte magic, command, payload, stored little-endian u32 checksum). -/
structure Frame where
  magic : List Nat
  command : String
  payload : List Nat
  checksum : Nat
deriving DecidableEq, Repr

deriving instance DecidableEq for Except

/-- Outcome of handling one frame: the events triggered, whether the link was
closed, and whether control returned normally (`.ok`) or the `assert.ok(false)`
raised (`.error`). -/
structure FrameOutcome where
  events : List NodeEvent
  closed : Bool
  result : Except String Unit
deriving DecidableEq, Repr

/-- The magic/checksum verification and dispatch of one frame in
`Node.beginReceivingMessagesAsync`.  `sha256dFirstU32` (first little-endian
u32 of double-SHA256) is the external hash collaborator; dispatch of a known
command is abstracted to a normal return. -/
def receiveFrame (sha256dFirstU32 : List Nat → Nat) (expectedMagic : List Nat)
    (knownCommands : List String) (fr : Frame) : FrameOutcome :=
  if ¬ fr.magic = expectedMagic then
    ⟨[.badPeer "Bad magic number"], true, .error "assertion failed"⟩
  else if ¬ sha256dFirstU32 fr.payload = fr.checksum then
    ⟨[.badPeer "Bad checksum"], true, .error "assertion failed"⟩
  else if knownCommands.contains fr.command then
    ⟨[], false, .ok ()⟩
  else
    ⟨[.unknownCommand fr.command], false, .ok ()⟩

/-! ## Peer: pending share-request bookkeeping (`src/p2pool/p2p/Peer.ts`) -/

/-- `Buffer.toString('hex')`: two lowercase hex digits per byte, in order. -/
def bytesToHex (bs : List Nat) : String :=
  String.mk (bs.foldr
    (fun b acc => Nat.digitChar (b % 256 / 16) :: Nat.digitChar (b % 16) :: acc) [])

/-- `new Bignum(hexString, 16)` on a byte buffer's hex rendering: the bytes
read as one big-endian unsigned integer. -/
def bytesToNat (bs : List Nat) : Nat :=
  bs.foldl (fun acc b => acc * 256 + b % 256) 0

/-- `Bignum.toString(16)` (node-bignum, i.e. OpenSSL `BN_bn2hex`, lower-cased
by the wrapper): render the value's canonical big-endian bytes — leading zero
BYTES stripped — as two lowercase hex digits per byte, `"0"` for zero.
Equivalently: the minimal nibble rendering, left-padded with a single `'0'`
to even length. -/
def bnToHex (n : Nat) : String :=
  if n = 0 then "0"
  else
    String.mk (if (Nat.toDigits 16 n).length % 2 = 1
      then '0' :: Nat.toDigits 16 n else Nat.toDigits 16 n)

/-- The `pendingShareRequests` step of `Peer.handleGapsFound` for one gap:
`digest` is the external SHA-256 of `"descendent-length"`.  Returns whether
share requests were sent for this gap, and the updated pending set
(`Set.add` keyed by the hex string). -/
def recordGapRequest (pendingShareRequests : List String) (digest : List Nat) :
    Bool × List String :=
  let requestId := bytesToHex digest
  if pendingShareRequests.contains requestId then (false, pendingShareRequests)
  else (true, pendingShareRequests ++ [requestId])

/-- The `pendingShareRequests` step of `Peer.handleSharereply` when
`reply.result == 0`: `pendingShareRequests.delete(reply.id.toString(16))`. -/
def handleSharereplyOk (pendingShareRequests : List String) (replyId : Nat) : List String :=
  pendingShareRequests.filter (fun k => decide (¬ k = bnToHex replyId))

/-! ## Derived notions used by the theorems -/

/-- The walk that the spec describes for `subchain`: one index-0 share per
consecutive height, stepping by `step`, stopping when `n` shares have been
yielded or a height with no stored shares is reached. -/
def Sharechain.subchainSpecWalk (st : Sharechain) (step : Int) : Nat → Int → List BaseShare
  | 0, _ => []
  | n + 1, absheight =>
    match mapFind? st.absheightIndexer absheight with
    | none => []
    | some [] => []
    | some (s :: _) => s :: Sharechain.subchainSpecWalk st step n (absheight + step)

/-- Every share stored at a height records that height in `info.absheight`
(an `append`-established invariant, stated over the finite map entries). -/
def Sharechain.heightsConsistent (st : Sharechain) : Prop :=
  ∀ p ∈ st.absheightIndexer, ∀ s ∈ p.2, s.info.absheight = p.1

/-- Every share stored in the height index is valid. -/
def Sharechain.allValid (st : Sharechain) : Prop :=
  ∀ ht l, mapFind? st.absheightIndexer ht = some l → ∀ x ∈ l, x.validity = true

/-- Every hash key maps to a height whose list holds a share with that hash. -/
def Sharechain.hashCovered (st : Sharechain) : Prop :=
  ∀ k ht, mapFind? st.hashIndexer k = some ht →
    ∃ l, mapFind? st.absheightIndexer ht = some l ∧ ∃ x ∈ l, x.hash = k

def Sharechain.Inv (st : Sharechain) : Prop := st.allValid ∧ st.hashCovered

/-- A valid share with the given hash, absheight and parent hash. -/
def mkShare (hash : String) (absheight : Int) (prev : String) : BaseShare :=
  ⟨hash, ⟨absheight, ⟨prev⟩⟩, true⟩

/-- Appends at heights 1 and 2, then a new tip at height 17283: the eviction
of height 1 runs but `oldest` is never advanced past the evicted share. -/
def windowState : Sharechain :=
  Sharechain.appendAll Sharechain.initial
    [mkShare "w1" 1 "w0", mkShare "wm" 2 "w1", mkShare "w2" 17283 "wp"]

/-- A chain 1 ← 2 ← 3 with newest at height 3. -/
def deadState : Sharechain :=
  Sharechain.appendAll Sharechain.initial
    [mkShare "A" 1 "z", mkShare "B" 2 "A", mkShare "C" 3 "B"]

/-- A dead share: sits at occupied height 1, below newest, and no share at
height 2 references it. -/
def deadD : BaseShare := mkShare "D" 1 "w"

/-- A single share stored at absheight 0 (falsy in JS). -/
def heightZeroState : Sharechain :=
  Sharechain.appendAll Sharechain.initial [mkShare "z0" 0 "zp"]

/-- A two-share chain at heights 5 and 6. -/
def walkState : Sharechain :=
  Sharechain.appendAll Sharechain.initial [mkShare "v5" 5 "v4", mkShare "v6" 6 "v5"]

/-- Height 7 holds a main-chain share `oa` and an orphan `ob`. -/
def orphanState : Sharechain :=
  Sharechain.appendAll Sharechain.initial [mkShare "oa" 7 "p7", mkShare "ob" 7 "q7"]

/-- A share that failed external validation. -/
def invalidShare : BaseShare := ⟨"bad", ⟨4, ⟨"p"⟩⟩, false⟩

/-- A connection whose socket is installed and still open. -/
def openConn : NodeConn := ⟨true, false, false, 0⟩

/-- A 32-byte digest whose leading byte is `0x00`, so its buffer hex
rendering starts with `"00"`. -/
def zeroLeadDigest : List Nat := 0 :: List.replicate 31 1

/-- A 32-byte digest with no leading zero byte (every byte is `0x01`). -/
def fullDigest : List Nat := List.replicate 32 1

/-! ## Helper lemmas -/

theorem mapFind?_foldl_mapDelete (ds : List BaseShare) (m : List (String × Int))
    (k : String) (v : Int)
    (h : mapFind? (ds.foldl (fun acc s => mapDelete acc s.hash) m) k = some v) :
    mapFind? m k = some v ∧ ∀ s ∈ ds, ¬ s.hash = k := by
  induction ds generalizing m with
  | nil => simpa using h
  | cons d t ih =>
    simp only [List.foldl_cons] at h
    obtain ⟨h1, h2⟩ := ih (mapDelete m d.hash) h
    rw [mapFind?_mapDelete] at h1
    by_cases hk : k = d.hash
    · simp [hk] at h1
    · simp [hk] at h1
      refine ⟨h1, ?_⟩
      intro s hs
      rcases List.mem_cons.mp hs with hs | hs
      · subst hs
        intro hh
        exact hk hh.symm
      · exact h2 s hs

theorem evictOldest_eq_drop (l : List String) : evictOldest l = l.drop (l.length - 10) := by
  induction l with
  | nil => simp [evictOldest]
  | cons x rest ih =>
    simp only [evictOldest, List.length_cons]
    by_cases h : rest.length + 1 > 10
    · have hsub : rest.length + 1 - 10 = (rest.length - 10) + 1 := by omega
      rw [if_pos h, hsub, List.drop_succ_cons, ih]
    · have hsub : rest.length + 1 - 10 = 0 := by omega
      rw [if_neg h, hsub, List.drop_zero]

theorem length_foldl_setAdd (hs : List String) (m : List String) :
    (hs.foldl setAdd m).length ≤ m.length + hs.length := by
  induction hs generalizing m with
  | nil => simp
  | cons h t ih =>
    have h1 : (setAdd m h).length ≤ m.length + 1 := by
      rw [setAdd]
      by_cases hc : m.contains h = true
      · rw [if_pos hc]
        omega
      · rw [if_neg hc]
        simp
    have h2 := ih (setAdd m h)
    simp only [List.foldl_cons, List.length_cons]
    omega

theorem subchainGo_eq_specWalk (st : Sharechain) (hcons : st.heightsConsistent)
    (step : Int) (n : Nat) (ht : Int) :
    Sharechain.subchainGo st step n ht = Sharechain.subchainSpecWalk st step n ht := by
  induction n generalizing ht with
  | zero => rfl
  | succ k ih =>
    cases hfind : mapFind? st.absheightIndexer ht with
    | none => simp [Sharechain.subchainGo, Sharechain.subchainSpecWalk, hfind]
    | some l =>
      cases l with
      | nil => simp [Sharechain.subchainGo, Sharechain.subchainSpecWalk, hfind]
      | cons s rest =>
        have hmem := mapFind?_mem _ _ _ hfind
        have hs : s.info.absheight = ht := hcons _ hmem s (by simp)
        simp [Sharechain.subchainGo, Sharechain.subchainSpecWalk, hfind, hs, ih]

theorem Sharechain.updateOldest_absheightIndexer (st : Sharechain) (share : BaseShare) :
    (Sharechain.updateOldest st share).absheightIndexer = st.absheightIndexer := by
  unfold Sharechain.updateOldest
  cases h : st.oldest with
  | none => rfl
  | some old =>
    by_cases hc : share.info.absheight < old.info.absheight <;> simp [hc]

theorem Sharechain.updateOldest_hashIndexer (st : Sharechain) (share : BaseShare) :
    (Sharechain.updateOldest st share).hashIndexer = st.hashIndexer := by
  unfold Sharechain.updateOldest
  cases h : st.oldest with
  | none => rfl
  | some old =>
    by_cases hc : share.info.absheight < old.info.absheight <;> simp [hc]

theorem Sharechain.updateOldest_newest (st : Sharechain) (share : BaseShare) :
    (Sharechain.updateOldest st share).newest = st.newest := by
  unfold Sharechain.updateOldest
  cases h : st.oldest with
  | none => rfl
  | some old =>
    by_cases hc : share.info.absheight < old.info.absheight <;> simp [hc]

theorem Sharechain.Inv_of_indexers (st st' : Sharechain)
    (ha : st'.absheightIndexer = st.absheightIndexer)
    (hh : st'.hashIndexer = st.hashIndexer) (h : st.Inv) : st'.Inv := by
  obtain ⟨h1, h2⟩ := h
  unfold Sharechain.Inv Sharechain.allValid Sharechain.hashCovered at *
  constructor
  · intro ht l hf x hx
    rw [ha] at hf
    exact h1 ht l hf x hx
  · intro k ht hf
    rw [hh] at hf
    obtain ⟨l, hl, hx⟩ := h2 k ht hf
    rw [← ha] at hl
    exact ⟨l, hl, hx⟩

/-- The indexer mutation of `append` (push onto the height list, record the
hash) preserves the invariant when the share is valid. -/
theorem Sharechain.insert_stage_Inv (st : Sharechain) (share : BaseShare)
    (hval : share.validity = true) (h : st.Inv) :
    Sharechain.Inv { st with
      absheightIndexer := mapSet st.absheightIndexer share.info.absheight
        (((mapFind? st.absheightIndexer share.info.absheight).getD []) ++ [share]),
      hashIndexer := mapSet st.hashIndexer share.hash share.info.absheight } := by
  obtain ⟨h1, h2⟩ := h
  unfold Sharechain.Inv Sharechain.allValid Sharechain.hashCovered at *
  constructor
  · intro ht l hf x hx
    replace hf : mapFind? (mapSet st.absheightIndexer share.info.absheight
        (((mapFind? st.absheightIndexer share.info.absheight).getD []) ++ [share])) ht =
        some l := hf
    rcases mapFind?_mapSet_cases _ _ _ _ _ hf with ⟨hhe, hle⟩ | ⟨hne, hfm⟩
    · subst hle
      rcases List.mem_append.mp hx with hx0 | hx1
      · cases hfind : mapFind? st.absheightIndexer share.info.absheight with
        | none => rw [hfind] at hx0; simp at hx0
        | some l0 =>
          rw [hfind] at hx0
          exact h1 _ l0 hfind x hx0
      · rw [List.mem_singleton.mp hx1]
        exact hval
    · exact h1 ht l hfm x hx
  · intro k ht hf
    replace hf : mapFind? (mapSet st.hashIndexer share.hash share.info.absheight) k =
        some ht := hf
    rcases mapFind?_mapSet_cases _ _ _ _ _ hf with ⟨hke, hte⟩ | ⟨hne, hfm⟩
    · subst hke hte
      refine ⟨_, mapFind?_mapSet_self _ _ _, share, ?_, rfl⟩
      exact List.mem_append.mpr (Or.inr (List.mem_singleton.mpr rfl))
    · obtain ⟨l0, hl0, x, hx, hhash⟩ := h2 k ht hfm
      by_cases hht : ht = share.info.absheight
      · subst hht
        refine ⟨_, mapFind?_mapSet_self _ _ _, x, ?_, hhash⟩
        rw [hl0]
        exact List.mem_append.mpr (Or.inl hx)
      · refine ⟨l0, ?_, x, hx, hhash⟩
        rw [mapFind?_mapSet_ne _ _ _ _ hht]
        exact hl0

/-- Deleting the height list at one height together with its hashes
(the mutation of `cleanDeprecations`) preserves the invariant. -/
theorem Sharechain.delete_stage_Inv (st : Sharechain) (oldh : Int) (ds : List BaseShare)
    (h : st.Inv) (hds : mapFind? st.absheightIndexer oldh = some ds) :
    Sharechain.Inv { st with
      absheightIndexer := mapDelete st.absheightIndexer oldh,
      hashIndexer := ds.foldl (fun m s => mapDelete m s.hash) st.hashIndexer } := by
  obtain ⟨h1, h2⟩ := h
  unfold Sharechain.Inv Sharechain.allValid Sharechain.hashCovered at *
  constructor
  · intro ht l hf x hx
    replace hf : mapFind? (mapDelete st.absheightIndexer oldh) ht = some l := hf
    rw [mapFind?_mapDelete] at hf
    by_cases hht : ht = oldh
    · simp [hht] at hf
    · simp only [hht, if_false] at hf
      exact h1 ht l hf x hx
  · intro k ht hf
    replace hf : mapFind?
        (ds.foldl (fun m s => mapDelete m s.hash) st.hashIndexer) k = some ht := hf
    obtain ⟨hf1, hf2⟩ := mapFind?_foldl_mapDelete ds st.hashIndexer k ht hf
    obtain ⟨l, hl, x, hx, hhash⟩ := h2 k ht hf1
    by_cases hht : ht = oldh
    · subst hht
      rw [hds] at hl
      obtain rfl : ds = l := Option.some_inj.mp hl
      exact absurd hhash (hf2 x hx)
    · refine ⟨l, ?_, x, hx, hhash⟩
      rw [mapFind?_mapDelete]
      simp only [hht, if_false]
      exact hl

theorem Sharechain.cleanDeprecations_Inv (st : Sharechain) (h : st.Inv) :
    (Sharechain.cleanDeprecations st).Inv := by
  unfold Sharechain.cleanDeprecations
  cases hn : st.newest with
  | none => exact h
  | some nw =>
    cases ho : st.oldest with
    | none => exact h
    | some old =>
      by_cases hd : nw.info.absheight - old.info.absheight < MAX_CHAIN_LENGTH
      · simp only [hd, if_true]
        exact h
      · simp only [hd, if_false]
        cases hds : mapFind? st.absheightIndexer old.info.absheight with
        | none => exact h
        | some ds =>
          by_cases he : ds.isEmpty
          · simp only [he, if_true]
            exact h
          · simp only [he, if_false]
            exact Sharechain.delete_stage_Inv st old.info.absheight ds ⟨h.1, h.2⟩ hds

/-- Rewriting a height list to `v :: (the other hashes)` — the orphan
promotion performed in both rewrite sites of `append` — preserves the
invariant when `v` comes from the existing list. -/
theorem Sharechain.promote_stage_Inv (st : Sharechain) (ht0 : Int) (l : List BaseShare)
    (v : BaseShare) (h : st.Inv) (hl : mapFind? st.absheightIndexer ht0 = some l)
    (hv : v ∈ l) :
    Sharechain.Inv { st with
      absheightIndexer := mapSet st.absheightIndexer ht0
        (v :: l.filter (fun s => decide (¬ s.hash = v.hash))) } := by
  obtain ⟨h1, h2⟩ := h
  unfold Sharechain.Inv Sharechain.allValid Sharechain.hashCovered at *
  constructor
  · intro ht l2 hf x hx
    replace hf : mapFind? (mapSet st.absheightIndexer ht0
        (v :: l.filter (fun s => decide (¬ s.hash = v.hash)))) ht = some l2 := hf
    rcases mapFind?_mapSet_cases _ _ _ _ _ hf with ⟨hhe, hle⟩ | ⟨hne, hfm⟩
    · subst hle
      rcases List.mem_cons.mp hx with rfl | hx2
      · exact h1 ht0 l hl x hv
      · exact h1 ht0 l hl x (List.mem_of_mem_filter hx2)
    · exact h1 ht l2 hfm x hx
  · intro k ht hf
    replace hf : mapFind? st.hashIndexer k = some ht := hf
    obtain ⟨l0, hl0, x, hx, hhash⟩ := h2 k ht hf
    by_cases hht : ht = ht0
    · subst hht
      rw [hl] at hl0
      obtain rfl : l = l0 := Option.some_inj.mp hl0
      refine ⟨_, mapFind?_mapSet_self _ _ _, ?_⟩
      by_cases hxv : x.hash = v.hash
      · exact ⟨v, List.mem_cons_self _ _, by rw [hxv] at hhash; exact hhash⟩
      · refine ⟨x, List.mem_cons_of_mem _ ?_, hhash⟩
        exact List.mem_filter.mpr ⟨hx, by simp [hxv]⟩
    · refine ⟨l0, ?_, x, hx, hhash⟩
      rw [mapFind?_mapSet_ne _ _ _ _ hht]
      exact hl0

/-- The height-relative branch of `append` preserves the invariant. -/
theorem Sharechain.appendTail_Inv (st2 : Sharechain) (share : BaseShare)
    (shares1 : List BaseShare) (h : st2.Inv)
    (hs1 : mapFind? st2.absheightIndexer share.info.absheight = some shares1)
    (hmem : share ∈ shares1) :
    (Sharechain.appendTail st2 share shares1).2.1.Inv := by
  rw [Sharechain.appendTail]
  cases hn : st2.newest with
  | none =>
    dsimp only
    split
    · exact Sharechain.Inv_of_indexers _ st2 rfl rfl h
    · exact Sharechain.Inv_of_indexers _ st2 rfl rfl h
  | some nw =>
    dsimp only
    by_cases hlt : nw.info.absheight < share.info.absheight
    · rw [if_pos hlt]
      have h3 : Sharechain.Inv { st2 with newest := some share } :=
        Sharechain.Inv_of_indexers _ st2 rfl rfl h
      have h4 := Sharechain.cleanDeprecations_Inv _ h3
      cases hfp : mapFind?
          (Sharechain.cleanDeprecations { st2 with newest := some share }).absheightIndexer
          (share.info.absheight - 1) with
      | none => exact h4
      | some previousShares =>
        dsimp only
        by_cases hl2 : previousShares.length < 2
        · rw [if_pos hl2]
          exact h4
        · rw [if_neg hl2]
          cases hfv : previousShares.find?
              (fun s => decide (s.hash = share.info.data.previousShareHash)) with
          | none => exact h4
          | some verified =>
            dsimp only
            exact Sharechain.promote_stage_Inv _ _ previousShares verified h4 hfp
              (List.mem_of_find?_eq_some hfv)
    · rw [if_neg hlt]
      by_cases heq : share.info.absheight = nw.info.absheight
      · rw [if_pos heq]
        exact h
      · rw [if_neg heq]
        by_cases hl2 : shares1.length < 2
        · rw [if_pos hl2]
          exact h
        · rw [if_neg hl2]
          cases hfn : mapFind? st2.absheightIndexer (share.info.absheight + 1) with
          | none => exact h
          | some nextShares =>
            dsimp only
            by_cases hemp : nextShares.isEmpty
            · rw [if_pos hemp]
              exact h
            · rw [if_neg hemp]
              by_cases hany : (nextShares.any
                  fun s => decide (s.info.data.previousShareHash = share.hash)) = false
              · rw [if_pos hany]
                exact h
              · rw [if_neg hany]
                exact Sharechain.promote_stage_Inv _ _ shares1 share h hs1 hmem

/-- `append` preserves the invariant. -/
theorem Sharechain.appendOp_Inv (st : Sharechain) (share : BaseShare) (h : st.Inv) :
    (Sharechain.appendOp st share).2.1.Inv := by
  rw [Sharechain.appendOp]
  by_cases hv : share.validity = false
  · rw [if_pos hv]
    exact h
  · rw [if_neg hv]
    dsimp only
    by_cases hdup : (((mapFind? st.absheightIndexer share.info.absheight).getD []).any
        fun s => decide (s.hash = share.hash)) = true
    · rw [if_pos hdup]
      exact h
    · rw [if_neg hdup]
      have hval : share.validity = true := by
        cases hb : share.validity
        · exact absurd hb hv
        · rfl
      have hins := Sharechain.insert_stage_Inv st share hval h
      apply Sharechain.appendTail_Inv _ share _
        (Sharechain.Inv_of_indexers _ _
          (Sharechain.updateOldest_absheightIndexer _ _)
          (Sharechain.updateOldest_hashIndexer _ _) hins)
      · rw [Sharechain.updateOldest_absheightIndexer]
        exact mapFind?_mapSet_self _ _ _
      · exact List.mem_append.mpr (Or.inr (List.mem_singleton.mpr rfl))

theorem Sharechain.initial_Inv : Sharechain.initial.Inv := by
  unfold Sharechain.Inv Sharechain.allValid Sharechain.hashCovered Sharechain.initial
  constructor
  · intro ht l hf
    simp [mapFind?] at hf
  · intro k ht hf
    simp [mapFind?] at hf

theorem Sharechain.appendAll_Inv (st : Sharechain) (l : List BaseShare) (h : st.Inv) :
    (Sharechain.appendAll st l).Inv := by
  induction l generalizing st with
  | nil => exact h
  | cons a t ih => exact ih _ (Sharechain.appendOp_Inv st a h)

/-- In the non-duplicate, valid case `append` reduces to `appendTail` of an
insertion state whose projections are explicit. -/
theorem Sharechain.appendOp_eq_appendTail (st : Sharechain) (share : BaseShare)
    (hv : share.validity = true) (l : List BaseShare)
    (hl : mapFind? st.absheightIndexer share.info.absheight = some l)
    (hany : (l.any fun s => decide (s.hash = share.hash)) = false) :
    ∃ st2 : Sharechain,
      Sharechain.appendOp st share = Sharechain.appendTail st2 share (l ++ [share]) ∧
      st2.newest = st.newest ∧
      st2.absheightIndexer =
        mapSet st.absheightIndexer share.info.absheight (l ++ [share]) ∧
      st2.hashIndexer = mapSet st.hashIndexer share.hash share.info.absheight := by
  refine ⟨Sharechain.updateOldest
    { st with
      absheightIndexer := mapSet st.absheightIndexer share.info.absheight (l ++ [share]),
      hashIndexer := mapSet st.hashIndexer share.hash share.info.absheight } share,
    ?_, ?_, ?_, ?_⟩
  · rw [Sharechain.appendOp]
    rw [if_neg (by simp [hv])]
    dsimp only
    rw [hl]
    dsimp only [Option.getD_some]
    rw [if_neg (by simp [hany])]
  · rw [Sharechain.updateOldest_newest]
  · rw [Sharechain.updateOldest_absheightIndexer]
  · rw [Sharechain.updateOldest_hashIndexer]

/-! ## Claim theorems -/

/-- C1: the claim states that once `newest` and `oldest` are defined,
`newest.absheight − oldest.absheight ≤ MAX_CHAIN_LENGTH` holds after every
append and below-window shares are removed from both indexers.  The code
violates this: `cleanDeprecations` deletes the single height `oldest` points
at but never advances `oldest`, so after the appends at heights 1, 2, 17283
the difference is 17282 > 17280 and the share at height 2 (below the window
bottom 17283 − 17280 = 3) is still present in both indexers. -/
theorem Sharechain.window_invariant_fails :
    windowState.newest = some (mkShare "w2" 17283 "wp") ∧
    windowState.oldest = some (mkShare "w1" 1 "w0") ∧
    MAX_CHAIN_LENGTH <
      (mkShare "w2" 17283 "wp").info.absheight - (mkShare "w1" 1 "w0").info.absheight ∧
    (mkShare "wm" 2 "w1").info.absheight <
      (mkShare "w2" 17283 "wp").info.absheight - MAX_CHAIN_LENGTH ∧
    mapFind? windowState.hashIndexer "wm" = some 2 ∧
    mapFind? windowState.absheightIndexer 2 = some [mkShare "wm" 2 "w1"] := by decide

/-- C2 counterexample: appending the dead share `D` to the chain 1 ← 2 ← 3
emits `deadArrived` and returns `false`, but `D` is present in both
`hashIndexer` and `absheightIndexer` afterwards — the claim asserts it is
absent from both. -/
theorem Sharechain.dead_share_still_indexed_cex :
    (Sharechain.appendOp deadState deadD).1 = false ∧
    (Sharechain.appendOp deadState deadD).2.2 = [SCEvent.deadArrived deadD] ∧
    mapFind? (Sharechain.appendOp deadState deadD).2.1.hashIndexer "D" = some 1 ∧
    mapFind? (Sharechain.appendOp deadState deadD).2.1.absheightIndexer 1 =
      some [mkShare "A" 1 "z", deadD] := by decide

/-- C2 amended: for every valid, non-duplicate share `D` whose height is
below `newest`, where the height list for `D`'s height already contains
another share and the list at `D`'s height + 1 is non-empty but contains no
share whose `previousShareHash` equals `D.hash`: `append(D)` emits
`deadArrived` (and nothing else), returns `false`, but leaves `D` PRESENT in
both `hashIndexer` and `absheightIndexer` (the share is pushed before the
dead-share check and never removed). -/
theorem Sharechain.dead_share_behavior (st : Sharechain) (d nw : BaseShare)
    (l ns : List BaseShare)
    (hnw : st.newest = some nw) (hv : d.validity = true)
    (hl : mapFind? st.absheightIndexer d.info.absheight = some l) (hlne : ¬ l = [])
    (hnodup : ∀ x ∈ l, ¬ x.hash = d.hash)
    (hbelow : d.info.absheight < nw.info.absheight)
    (hns : mapFind? st.absheightIndexer (d.info.absheight + 1) = some ns)
    (hnsne : ¬ ns = [])
    (hdead : ∀ x ∈ ns, ¬ x.info.data.previousShareHash = d.hash) :
    (Sharechain.appendOp st d).1 = false ∧
    (Sharechain.appendOp st d).2.2 = [SCEvent.deadArrived d] ∧
    mapFind? (Sharechain.appendOp st d).2.1.hashIndexer d.hash =
      some d.info.absheight ∧
    mapFind? (Sharechain.appendOp st d).2.1.absheightIndexer d.info.absheight =
      some (l ++ [d]) := by
  have hany : (l.any fun s => decide (s.hash = d.hash)) = false := by
    simp only [List.any_eq_false, decide_eq_true_eq]
    exact hnodup
  obtain ⟨st2, heq, hnew2, habs2, hhash2⟩ :=
    Sharechain.appendOp_eq_appendTail st d hv l hl hany
  have hlen : ¬ (l ++ [d]).length < 2 := by
    have h1 : 0 < l.length := List.length_pos.mpr hlne
    simp only [List.length_append, List.length_cons, List.length_nil]
    omega
  have hfindNext : mapFind? st2.absheightIndexer (d.info.absheight + 1) = some ns := by
    rw [habs2, mapFind?_mapSet_ne _ _ _ _ (by omega)]
    exact hns
  have hnsEmpty : ns.isEmpty = false := by
    cases ns with
    | nil => exact absurd rfl hnsne
    | cons a t => rfl
  have hanyNext :
      (ns.any fun s => decide (s.info.data.previousShareHash = d.hash)) = false := by
    simp only [List.any_eq_false, decide_eq_true_eq]
    exact hdead
  have hlt : ¬ nw.info.absheight < d.info.absheight := by omega
  have hne2 : ¬ d.info.absheight = nw.info.absheight := by omega
  have hres : Sharechain.appendOp st d = (false, st2, [SCEvent.deadArrived d]) := by
    rw [heq, Sharechain.appendTail]
    rw [hnew2, hnw]
    dsimp only
    rw [if_neg hlt, if_neg hne2, if_neg hlen, hfindNext]
    dsimp only
    rw [if_neg (by simp [hnsEmpty]), if_pos hanyNext]
  rw [hres]
  refine ⟨rfl, rfl, ?_, ?_⟩
  · rw [hhash2]
    exact mapFind?_mapSet_self _ _ _
  · rw [habs2]
    exact mapFind?_mapSet_self _ _ _

/-- C2 witness: the concrete dead-share scenario of the counterexample,
obtained from the amended theorem. -/
theorem Sharechain.dead_share_behavior_witness :
    (Sharechain.appendOp deadState deadD).1 = false ∧
    (Sharechain.appendOp deadState deadD).2.2 = [SCEvent.deadArrived deadD] ∧
    mapFind? (Sharechain.appendOp deadState deadD).2.1.hashIndexer deadD.hash =
      some deadD.info.absheight ∧
    mapFind? (Sharechain.appendOp deadState deadD).2.1.absheightIndexer
      deadD.info.absheight = some ([mkShare "A" 1 "z"] ++ [deadD]) :=
  Sharechain.dead_share_behavior deadState deadD (mkShare "C" 3 "B")
    [mkShare "A" 1 "z"] [mkShare "B" 2 "A"]
    (by decide) rfl (by decide) (by decide) (by decide) (by decide) (by decide)
    (by decide) (by decide)

/-- C3 counterexample: one `have_tx` message with 11 distinct hashes leaves
`remoteTxHashs` at size 11 (the claim says at most 10); and after 10 hashes
in one message and an 11th in the next, the size is 11 and the oldest entry
is still present (the claim says the 11th insertion evicts the oldest). -/
theorem Node.remoteTxHashs_bound_cex :
    (handleHaveTx []
      ["t01", "t02", "t03", "t04", "t05", "t06", "t07", "t08", "t09", "t10", "t11"]).length
      = 11 ∧
    (handleHaveTx (handleHaveTx []
      ["t01", "t02", "t03", "t04", "t05", "t06", "t07", "t08", "t09", "t10"])
      ["t11"]).length = 11 ∧
    (handleHaveTx (handleHaveTx []
      ["t01", "t02", "t03", "t04", "t05", "t06", "t07", "t08", "t09", "t10"])
      ["t11"]).head? = some "t01" := by decide

/-- C3 amended: `handleHave_tx` first evicts oldest entries (FIFO, i.e. a
front `drop`) until at most 10 pre-existing entries remain, and only then
inserts the message's hashes; consequently the set size after the handler is
bounded by 10 + the number of hashes in the message, not by 10. -/
theorem Node.handleHaveTx_evicts_before_insert (l hs : List String) :
    handleHaveTx l hs = hs.foldl setAdd (l.drop (l.length - 10)) ∧
    (handleHaveTx l hs).length ≤ 10 + hs.length := by
  constructor
  · rw [handleHaveTx, evictOldest_eq_drop]
  · have h1 : (evictOldest l).length ≤ 10 := by
      rw [evictOldest_eq_drop, List.length_drop]
      omega
    have h2 := length_foldl_setAdd hs (evictOldest l)
    rw [handleHaveTx]
    omega

/-- C4 counterexample: `close()` never clears `this.socket`, so calling it
twice on a connection with an installed socket emits `End` twice — the claim
says `End` is emitted exactly once in total. -/
theorem Node.close_end_emitted_twice_cex :
    (NodeConn.closeIter openConn 2).endEmitted = 2 := by decide

/-- C4 amended: every `close()` call on a connection with an installed socket
ends the socket and detaches the handlers, but emits one `End` event per
call (`n` calls emit `n` events); `close` is not idempotent in its `End`
emission. -/
theorem Node.close_emits_end_per_call (c : NodeConn) (n : Nat)
    (hs : c.socketInstalled = true) (hn : 1 ≤ n) :
    NodeConn.closeIter c n = ⟨true, true, true, c.endEmitted + n⟩ := by
  induction n generalizing c with
  | zero => omega
  | succ k ih =>
    cases k with
    | zero =>
      obtain ⟨si, se, lr, cnt⟩ := c
      subst hs
      simp [NodeConn.closeIter, NodeConn.close]
    | succ m =>
      rw [NodeConn.closeIter]
      have hs' : (NodeConn.close c).socketInstalled = true := by
        simp [NodeConn.close, hs]
      rw [ih c.close hs' (by omega)]
      simp [NodeConn.close, hs]
      omega

/-- C4 witness: three `close()` calls on an open connection emit three `End`
events. -/
theorem Node.close_emits_end_per_call_witness :
    NodeConn.closeIter openConn 3 = ⟨true, true, true, 3⟩ :=
  Node.close_emits_end_per_call openConn 3 rfl (by omega)

/-- C5 counterexample: on a checksum mismatch the receive loop runs
`assert.ok(false)` after emitting `badPeer` and closing, so the handler does
not return normally — the claim says it returns normally rather than
raising. -/
theorem Node.bad_checksum_raises_cex :
    (receiveFrame (fun _ => 0) [] ["ping"] ⟨[], "ping", [], 1⟩).result =
      Except.error "assertion failed" ∧
    ¬ (receiveFrame (fun _ => 0) [] ["ping"] ⟨[], "ping", [], 1⟩).result =
      Except.ok () := by decide

/-- C5 amended: for every frame whose stored checksum differs from the first
little-endian u32 of double-SHA256 of the payload, the connection emits
`badPeer("Bad checksum")` and closes the link, and then the handler raises
an assertion failure instead of returning normally. -/
theorem Node.bad_checksum_behavior (chk : List Nat → Nat) (magic : List Nat)
    (cmds : List String) (fr : Frame) (hm : fr.magic = magic)
    (hc : ¬ chk fr.payload = fr.checksum) :
    receiveFrame chk magic cmds fr =
      ⟨[.badPeer "Bad checksum"], true, .error "assertion failed"⟩ := by
  simp [receiveFrame, hm, hc]

/-- C5 witness at a concrete hash function and frame. -/
theorem Node.bad_checksum_behavior_witness :
    receiveFrame (fun _ => 0) [] [] ⟨[], "ping", [], 1⟩ =
      ⟨[.badPeer "Bad checksum"], true, .error "assertion failed"⟩ :=
  Node.bad_checksum_behavior (fun _ => 0) [] [] ⟨[], "ping", [], 1⟩ rfl (by decide)

/-- C6: `handleGapsFound` records the key `sha256(...).toString('hex')` —
64 lowercase hex chars, a leading zero byte rendered as `"00"` — and sends
`id = new Bignum(key, 16)`; `handleSharereply` deletes
`reply.id.toString(16)`, i.e. `BN_bn2hex` of the value, whose leading zero
BYTES are stripped.  For a digest with no leading zero byte the two strings
agree and the key is removed (first two conjuncts, digest `0x0101...01`);
but for a digest whose first byte is `0x00` (about 1 in 256 of keys) the
rendered id is two characters shorter than the stored key, the delete
misses, the key stays recorded, and a subsequent `gapsFound` for the same
gap sends no share requests. -/
theorem Peer.pending_request_never_removed :
    bnToHex (bytesToNat fullDigest) = bytesToHex fullDigest ∧
    handleSharereplyOk [bytesToHex fullDigest] (bytesToNat fullDigest) = [] ∧
    recordGapRequest [] zeroLeadDigest = (true, [bytesToHex zeroLeadDigest]) ∧
    ¬ bnToHex (bytesToNat zeroLeadDigest) = bytesToHex zeroLeadDigest ∧
    handleSharereplyOk [bytesToHex zeroLeadDigest] (bytesToNat zeroLeadDigest) =
      [bytesToHex zeroLeadDigest] ∧
    (recordGapRequest [bytesToHex zeroLeadDigest] zeroLeadDigest).1 = false := by decide

/-- C7 counterexample: a share stored at absheight 0 is present in
`hashIndexer` (with a non-empty height list), yet `subchain` yields the
empty sequence in both directions, because the entry check
`if (!absheight) return;` treats height 0 as missing — the claim says the
sequence is non-empty. -/
theorem Sharechain.subchain_height_zero_cex :
    mapFind? heightZeroState.hashIndexer "z0" = some 0 ∧
    mapFind? heightZeroState.absheightIndexer 0 = some [mkShare "z0" 0 "zp"] ∧
    Sharechain.subchain heightZeroState "z0" 1 Direction.backward = [] ∧
    Sharechain.subchain heightZeroState "z0" 1 Direction.forward = [] := by decide

/-- C7 amended: for every hash present in `hashIndexer` whose mapped height is
non-zero, with a non-empty height list, a length of at least 1 and either
direction, `subchain` yields exactly one index-0 share per consecutive height
starting at that height, stepping by ±1 and stopping only when the requested
count is reached or a height with no stored shares is reached; in particular
the sequence is non-empty.  (At height 0 the sequence is empty instead.) -/
theorem Sharechain.subchain_walk (st : Sharechain) (startHash : String) (ht : Int)
    (n : Nat) (d : Direction) (l : List BaseShare)
    (hcons : st.heightsConsistent)
    (hfind : mapFind? st.hashIndexer startHash = some ht) (hz : ¬ ht = 0)
    (hl : mapFind? st.absheightIndexer ht = some l) (hne : ¬ l = []) (hn : 1 ≤ n) :
    Sharechain.subchain st startHash n d =
      Sharechain.subchainSpecWalk st (if d = Direction.backward then -1 else 1) n ht ∧
    ¬ Sharechain.subchain st startHash n d = [] := by
  have heq : Sharechain.subchain st startHash n d =
      Sharechain.subchainGo st (if d = Direction.backward then -1 else 1) n ht := by
    simp [Sharechain.subchain, hfind, hz]
  rw [heq, subchainGo_eq_specWalk st hcons]
  refine ⟨rfl, ?_⟩
  cases n with
  | zero => omega
  | succ k =>
    cases l with
    | nil => exact absurd rfl hne
    | cons s rest => simp [Sharechain.subchainSpecWalk, hl]

/-- C7 witness: walking backward from the height-6 tip of a two-share chain. -/
theorem Sharechain.subchain_walk_witness :
    Sharechain.subchain walkState "v6" 2 Direction.backward =
      Sharechain.subchainSpecWalk walkState
        (if Direction.backward = Direction.backward then -1 else 1) 2 6 ∧
    ¬ Sharechain.subchain walkState "v6" 2 Direction.backward = [] :=
  Sharechain.subchain_walk walkState "v6" 6 2 Direction.backward
    [mkShare "v6" 6 "v5"]
    (by unfold Sharechain.heightsConsistent; decide)
    (by decide) (by decide) (by decide) (by decide) (by omega)

/-- C8: duplicate appends are idempotent.  If a share with the same hash is
already stored in the height list at the share's height, `append` returns
`false`, leaves the whole state (both indexers, `newest`, `oldest`)
unchanged, and emits no events. -/
theorem Sharechain.append_duplicate_idempotent (st : Sharechain) (s x : BaseShare)
    (l : List BaseShare)
    (hl : mapFind? st.absheightIndexer s.info.absheight = some l)
    (hx : x ∈ l) (hh : x.hash = s.hash) :
    Sharechain.appendOp st s = (false, st, []) := by
  by_cases hv : s.validity = false
  · simp [Sharechain.appendOp, hv]
  · have hany : (l.any fun t => decide (t.hash = s.hash)) = true :=
      List.any_eq_true.mpr ⟨x, hx, by simp [hh]⟩
    simp [Sharechain.appendOp, hv, hl, hany]

/-- C8 witness: re-appending the only stored share of a one-share chain. -/
theorem Sharechain.append_duplicate_idempotent_witness :
    Sharechain.appendOp heightZeroState (mkShare "z0" 0 "zp") =
      (false, heightZeroState, []) :=
  Sharechain.append_duplicate_idempotent heightZeroState (mkShare "z0" 0 "zp")
    (mkShare "z0" 0 "zp") [mkShare "z0" 0 "zp"] (by decide) (by decide) rfl

/-- C9: over every sequence of `append` calls from the empty store, every
share stored in `absheightIndexer` is valid, every key of `hashIndexer` is
the hash of a stored valid share, and `append` of a share with
`validity == false` returns `false`. -/
theorem Sharechain.no_invalid_share_indexed (l : List BaseShare) (s : BaseShare)
    (hs : s.validity = false) :
    (∀ ht hl, mapFind? (Sharechain.appendAll Sharechain.initial l).absheightIndexer ht =
        some hl → ∀ x ∈ hl, x.validity = true) ∧
    (∀ k ht, mapFind? (Sharechain.appendAll Sharechain.initial l).hashIndexer k =
        some ht →
      ∃ hl, mapFind? (Sharechain.appendAll Sharechain.initial l).absheightIndexer ht =
          some hl ∧ ∃ x ∈ hl, x.hash = k ∧ x.validity = true) ∧
    (Sharechain.appendOp (Sharechain.appendAll Sharechain.initial l) s).1 = false := by
  have hInv := Sharechain.appendAll_Inv Sharechain.initial l Sharechain.initial_Inv
  obtain ⟨h1, h2⟩ := hInv
  unfold Sharechain.allValid at h1
  unfold Sharechain.hashCovered at h2
  refine ⟨h1, ?_, ?_⟩
  · intro k ht hf
    obtain ⟨hl, hfl, x, hx, hhash⟩ := h2 k ht hf
    exact ⟨hl, hfl, x, hx, hhash, h1 ht hl hfl x hx⟩
  · rw [Sharechain.appendOp, if_pos hs]

/-- C9 witness: a one-append history and a concrete invalid share. -/
theorem Sharechain.no_invalid_share_indexed_witness :
    (∀ ht hl, mapFind? (Sharechain.appendAll Sharechain.initial
        [mkShare "a1" 1 "a0"]).absheightIndexer ht = some hl →
      ∀ x ∈ hl, x.validity = true) ∧
    (∀ k ht, mapFind? (Sharechain.appendAll Sharechain.initial
        [mkShare "a1" 1 "a0"]).hashIndexer k = some ht →
      ∃ hl, mapFind? (Sharechain.appendAll Sharechain.initial
          [mkShare "a1" 1 "a0"]).absheightIndexer ht = some hl ∧
        ∃ x ∈ hl, x.hash = k ∧ x.validity = true) ∧
    (Sharechain.appendOp (Sharechain.appendAll Sharechain.initial
      [mkShare "a1" 1 "a0"]) invalidShare).1 = false :=
  Sharechain.no_invalid_share_indexed [mkShare "a1" 1 "a0"] invalidShare rfl

/-- C10: `get` on a hash id returns the index-0 (main-chain) share of the
height list the hash maps to — which has a different hash whenever the
queried hash belongs to an orphan stored at index ≥ 1 (given that a height
list never stores one hash twice) — and returns `null` for an absent hash or
for a mapped height whose list is missing or empty. -/
theorem Sharechain.get_returns_main_chain (st : Sharechain) (hash : String) :
    (mapFind? st.hashIndexer hash = none → Sharechain.getShare st (Sum.inl hash) = none) ∧
    (∀ ht, mapFind? st.hashIndexer hash = some ht →
      (mapFind? st.absheightIndexer ht = none →
        Sharechain.getShare st (Sum.inl hash) = none) ∧
      (mapFind? st.absheightIndexer ht = some [] →
        Sharechain.getShare st (Sum.inl hash) = none) ∧
      (∀ s rest, mapFind? st.absheightIndexer ht = some (s :: rest) →
        Sharechain.getShare st (Sum.inl hash) = some s ∧
        (((s :: rest).map BaseShare.hash).Nodup → hash ∈ rest.map BaseShare.hash →
          ¬ s.hash = hash))) := by
  refine ⟨fun h => by simp [Sharechain.getShare, h], fun ht hf => ⟨?_, ?_, ?_⟩⟩
  · intro h
    simp [Sharechain.getShare, hf, h]
  · intro h
    simp [Sharechain.getShare, hf, h]
  · intro s rest h
    refine ⟨by simp [Sharechain.getShare, hf, h], ?_⟩
    intro hnd hmem heq
    have hnotin : s.hash ∉ rest.map BaseShare.hash := by
      simp only [List.map_cons, List.nodup_cons] at hnd
      exact hnd.1
    rw [heq] at hnotin
    exact hnotin hmem

/-- C10 witness: querying the orphan hash `"ob"` at height 7 returns the
main-chain share `oa`, whose hash differs. -/
theorem Sharechain.get_returns_main_chain_witness :
    Sharechain.getShare orphanState (Sum.inl "ob") = some (mkShare "oa" 7 "p7") ∧
    ¬ (mkShare "oa" 7 "p7").hash = "ob" := by
  have h := (Sharechain.get_returns_main_chain orphanState "ob").2 7 (by decide)
  have h2 := h.2.2 (mkShare "oa" 7 "p7") [mkShare "ob" 7 "q7"] (by decide)
  exact ⟨h2.1, h2.2 (by decide) (by decide)⟩
